import Mathlib

/-!
Verification of the pypi_simple_server core (src/pypi_simple_server) against
its natural-language specification.

Python strings are modelled as lists of characters (`Str`); SQLite TEXT
comparison (BINARY collation, byte order of UTF-8) coincides with the
code-point lexicographic order on `List Char` used here.  The SQLite table
`Distribution` is modelled as a list of rows in insertion (rowid) order.
-/

namespace PyPiSimpleServer

abbrev Str := List Char

/-- Byte-order comparison of strings, as SQLite BINARY collation and Python
string comparison perform it (code-point lexicographic). -/
def strLe : Str → Str → Bool
  | [], _ => true
  | _ :: _, [] => false
  | a :: as, b :: bs => if a < b then true else if a = b then strLe as bs else false

theorem strLe_total (a b : Str) : strLe a b = true ∨ strLe b a = true := by
  induction a generalizing b with
  | nil => left; rfl
  | cons x xs ih =>
    cases b with
    | nil => right; rfl
    | cons y ys =>
      rcases lt_trichotomy x y with h | h | h
      · left; simp [strLe, h]
      · subst h
        rcases ih ys with h2 | h2
        · left; simp [strLe, h2]
        · right; simp [strLe, h2]
      · right; simp [strLe, h, not_lt.mpr (le_of_lt h), (ne_of_gt h)]

theorem strLe_trans {a b c : Str} (hab : strLe a b = true) (hbc : strLe b c = true) :
    strLe a c = true := by
  induction a generalizing b c with
  | nil => rfl
  | cons x xs ih =>
    cases b with
    | nil => simp [strLe] at hab
    | cons y ys =>
      cases c with
      | nil => simp [strLe] at hbc
      | cons z zs =>
        simp only [strLe] at hab hbc ⊢
        by_cases hxy : x < y
        · by_cases hyz : y < z
          · simp [lt_trans hxy hyz]
          · simp only [hyz, if_false] at hbc
            by_cases hyz2 : y = z
            · subst hyz2; simp [hxy]
            · simp [hyz2] at hbc
        · simp only [hxy, if_false] at hab
          by_cases hxy2 : x = y
          · subst hxy2
            simp only [if_pos rfl] at hab
            by_cases hxz : x < z
            · simp [hxz]
            · simp only [hxz, if_false] at hbc ⊢
              by_cases hxz2 : x = z
              · subst hxz2
                simp only [if_pos rfl] at hbc ⊢
                exact ih hab hbc
              · simp [hxz2] at hbc
          · simp [hxy2] at hab

theorem strLe_antisymm {a b : Str} (hab : strLe a b = true) (hba : strLe b a = true) :
    a = b := by
  induction a generalizing b with
  | nil =>
    cases b with
    | nil => rfl
    | cons y ys => simp [strLe] at hba
  | cons x xs ih =>
    cases b with
    | nil => simp [strLe] at hab
    | cons y ys =>
      simp only [strLe] at hab hba
      by_cases hxy : x < y
      · have h1 : ¬ y < x := not_lt.mpr (le_of_lt hxy)
        have h2 : y ≠ x := ne_of_gt hxy
        simp [h1, h2] at hba
      · by_cases hxy2 : x = y
        · subst hxy2
          simp only [lt_irrefl, if_false, if_pos rfl] at hab hba
          exact congrArg (x :: ·) (ih hab hba)
        · simp [hxy, hxy2] at hab

/-- Strict version: a < b in byte order. -/
def strLt (a b : Str) : Bool := strLe a b && !(strLe b a)

/-! ### The sub-index string assigned by the scanner

`dist_scanner.py`, `ProjectFileReader.iter_files`:
```
index = f"{root_dir.relative_to(self.files_dir).as_posix()}/".lstrip(".")
```
`relDir` below is the posix rendering of `root_dir.relative_to(files_dir)`
(which is the string "." when `root_dir == files_dir`). -/

/-- Python `str.lstrip(".")`: remove every leading '.' character. -/
def lstripDot (s : Str) : Str := s.dropWhile (fun c => c = '.')

/-- The sub-index string the scanner stores for a file whose containing
directory renders as `relDir` relative to `files_dir`. -/
def subIndex (relDir : Str) : Str := lstripDot (relDir ++ ['/'])

/-! ### SQLite GLOB

`database.py` filters rows with `"index" GLOB ?`.  The matcher below follows
SQLite's `patternCompare` for the GLOB operator: `*` matches any sequence,
`?` any single character, `[...]` a character set with optional leading `^`
negation, a literal `]` first, and `-` ranges; an unterminated set matches
nothing.  Matching is case-sensitive. -/

/-- Scan the body of a `[...]` set (after any `^` and leading `]` have been
handled).  `c` is the subject character, `prior` the previous literal set
element (available as a range lower bound), `seen` whether `c` was already
found in the set.  Returns the pattern rest after the closing `]` together
with the final `seen`, or `none` for an unterminated set. -/
def scanSet (c : Char) : Option Char → Bool → Str → Option (Bool × Str)
  | _, seen, ']' :: rest => some (seen, rest)
  | prior, seen, '-' :: c2 :: rest =>
    if c2 ≠ ']' ∧ prior.isSome then
      scanSet c none (seen || (prior.getD c ≤ c && c ≤ c2)) rest
    else
      scanSet c (some '-') (seen || decide (c = '-')) (c2 :: rest)
  | _, seen, c2 :: rest => scanSet c (some c2) (seen || decide (c = c2)) rest
  | _, _, [] => none

/-- Full `[...]` set match for subject character `c` against the pattern rest
`ps` that follows the opening `[`: handles `^` negation and a literal leading
`]`, then scans the body.  Returns the pattern after the closing `]` when the
set matches `c`. -/
def matchSet (c : Char) (ps : Str) : Option Str :=
  let (invert, ps1) : Bool × Str :=
    match ps with
    | '^' :: rest => (true, rest)
    | _ => (false, ps)
  let (seen0, ps2) : Bool × Str :=
    match ps1 with
    | ']' :: rest => (decide (c = ']'), rest)
    | _ => (false, ps1)
  match scanSet c none seen0 ps2 with
  | some (seen, rest) => if (seen != invert) = true then some rest else none
  | none => none

/-- SQLite GLOB matching: does pattern `p` match the whole string `s`?
The dispatch on the pattern character mirrors SQLite's `patternCompare`. -/
def globMatch (p s : Str) : Bool :=
  match p, s with
  | [], [] => true
  | [], _ :: _ => false
  | pc :: ps, s =>
    if pc = '*' then
      globMatch ps s ||
        (match s with
         | [] => false
         | _ :: s2 => globMatch (pc :: ps) s2)
    else
      match s with
      | [] => false
      | c :: s2 =>
        if pc = '?' then globMatch ps s2
        else if pc = '[' then
          (match matchSet c ps with
           | some rest => globMatch rest s2
           | none => false)
        else pc = c && globMatch ps s2
termination_by (s.length, p.length)
decreasing_by
  all_goals simp_wf
  all_goals omega

/-- The GLOB pattern `database.py` builds for an index query:
`search_index = f"{index}/*" if index else "*"`. -/
def searchIndex (q : Str) : Str := if q = [] then ['*'] else q ++ ['/', '*']

/-- The per-row WHERE condition shared by `LOOKUP_PROJECT_LIST` and
`LOOKUP_PROJECT_DETAIL`: the stored index GLOB-matches the search pattern. -/
def indexMatches (q stored : Str) : Bool := globMatch (searchIndex q) stored

/-! ### The file-system walk of `ProjectFileReader.iter_files`

A directory is a finite tree of named subdirectories and plain file names.
`os.walk` visits the root first and then recurses into each subdirectory
(top-down).  Paths are lists of path components relative to `files_dir`. -/

inductive DirTree where
  | node (subdirs : List (Str × DirTree)) (files : List Str)

mutual

/-- `os.walk` over a tree rooted at relative path `p`: the stream of
`(directory path, file names)` pairs in visit order. -/
def walkTree (p : List Str) : DirTree → List (List Str × List Str)
  | .node subs files => (p, files) :: walkSubs p subs

def walkSubs (p : List Str) : List (Str × DirTree) → List (List Str × List Str)
  | [] => []
  | (n, child) :: rest => walkTree (p ++ [n]) child ++ walkSubs p rest

end

/-- `PurePath.as_posix()` of a relative directory path: "." for the root,
otherwise components joined with '/'. -/
def asPosix (p : List Str) : Str :=
  if p = [] then ['.'] else (List.intersperse ['/'] p).flatten

/-- A file yielded by the walk: its directory path (components relative to
`files_dir`) and its name. -/
abbrev FileEntry := List Str × Str

/-- `ProjectFileReader.iter_files`: walk `files_dir`, skip the directory that
*equals* `cache_dir` (given here by its path relative to `files_dir`, for the
nested case), and yield each remaining file with its sub-index string. -/
def iterFiles (cacheRel : List Str) (t : DirTree) : List (Str × FileEntry) :=
  (walkTree [] t).flatMap fun df =>
    if df.1 = cacheRel then []
    else df.2.map fun f => (subIndex (asPosix df.1), (df.1, f))

/-- Specification-side membership: the tree contains file `f` in the
directory at path `d`. -/
def hasFile : DirTree → List Str → Str → Prop
  | .node _ files, [], f => f ∈ files
  | .node subs _, n :: rest, f => ∃ c ∈ subs, c.1 = n ∧ hasFile c.2 rest f

/-! ### The store

`database.py`: table `Distribution("index", project, filename, version, file)`
with a unique index on `("index", "file")`; rows are listed in rowid
(insertion) order, and rows are never deleted. -/

/-- `models.ProjectFile`, the JSON-serialized blob stored in the `file`
column.  Two blobs are equal exactly when all fields are equal (msgspec JSON
encoding is deterministic). -/
structure ProjectFile where
  filename : Str
  size : Nat
  url : Str
  hashes : List (Str × Str)
  requiresPython : Option Str
  coreMetadata : Option (List (Str × Str))
  yanked : Option Str
deriving DecidableEq, Repr

/-- One row of the `Distribution` table. -/
structure Row where
  index : Str
  project : Str
  filename : Str
  version : Str
  file : ProjectFile
deriving DecidableEq, Repr

/-- The store: rows in rowid (insertion) order. -/
abbrev Store := List Row

/-- `CHECK_DIST`: is there a row with this `("index", filename)` pair? -/
def checkDist (s : Store) (idx fn : Str) : Bool :=
  s.any fun r => r.index = idx && r.filename = fn

/-- `STORE_DIST` under the schema of `BUILD_TABLE`: a plain `INSERT` that
fails (sqlite3.IntegrityError) when the unique index on `("index", "file")`
is violated, and otherwise appends the row. -/
def insertDist (s : Store) (r : Row) : Except Unit Store :=
  if s.any (fun x => x.index = r.index && x.file = r.file) then .error ()
  else .ok (s ++ [r])

/-- `GET_STATS`: `(COUNT(*), COUNT(DISTINCT project), COUNT(DISTINCT "index"))`. -/
def stats (s : Store) : Nat × Nat × Nat :=
  (s.length, (s.map Row.project).dedup.length, (s.map Row.index).dedup.length)

/-- Outcome of `ProjectFileReader.read` on one file, as seen by
`Database.update`: either a skip (UnhandledFileTypeError and InvalidFileError
are both caught and skipped) or `(name, version, dist)`. -/
inductive ReadOutcome where
  | unhandled
  | invalid
  | ok (name version : Str) (dist : ProjectFile)

/-- `Database.update`, folded over the files the scanner yields.  `read` is
the (deterministic, since `FILES_DIR` is unchanged during a scan) result of
`ProjectFileReader.read` per file.  An insert conflict propagates as an
error, exactly as the uncaught `sqlite3.IntegrityError` would. -/
def updateFiles (read : FileEntry → ReadOutcome) :
    List (Str × FileEntry) → Store → Except Unit Store
  | [], s => .ok s
  | (idx, fe) :: rest, s =>
    if checkDist s idx fe.2 then updateFiles read rest s
    else
      match read fe with
      | .unhandled => updateFiles read rest s
      | .invalid => updateFiles read rest s
      | .ok name version dist =>
        match insertDist s ⟨idx, name, fe.2, version, dist⟩ with
        | .error e => .error e
        | .ok s2 => updateFiles read rest s2

/-- `Database.update`: scan the tree and ingest every yielded file. -/
def update (read : FileEntry → ReadOutcome) (cacheRel : List Str) (t : DirTree)
    (s : Store) : Except Unit Store :=
  updateFiles read (iterFiles cacheRel t) s

/-! ### The two queries -/

/-- Ascending insertion sort of the rows of a query result by a string key,
in byte order (SQLite `ORDER BY` on a TEXT column). -/
def sortByKey (key : Row → Str) (l : List Row) : List Row :=
  l.insertionSort fun a b => strLe (key a) (key b) = true

/-- `GROUP BY filename HAVING ROWID = MIN(ROWID)`: keep, for each filename,
the first row in rowid order. -/
def keepFirstByFilename : List Row → List Row
  | [] => []
  | r :: rest => r :: keepFirstByFilename (rest.filter fun x => x.filename ≠ r.filename)
termination_by l => l.length
decreasing_by
  simp_wf
  have h := List.length_filter_le (fun x => !decide (x.filename = r.filename)) rest
  omega

/-- `LOOKUP_PROJECT_DETAIL`: the matching rows, one per filename (the one
with minimal rowid), ordered by filename ascending. -/
def lookupProjectDetailRows (s : Store) (project q : Str) : List Row :=
  sortByKey Row.filename
    (keepFirstByFilename (s.filter fun r => r.project = project && indexMatches q r.index))

/-- Python `sorted(set(l))`: the strictly ascending enumeration of the
distinct elements. -/
def sortedSet (l : List Str) : List Str :=
  (l.dedup).insertionSort fun a b => strLe a b = true

/-- The `ProjectDetail` model: canonical name, versions, files. -/
structure ProjectDetail where
  name : Str
  versions : List Str
  files : List ProjectFile
deriving DecidableEq, Repr

/-- `Database.get_project_detail`. -/
def getProjectDetail (s : Store) (project q : Str) : ProjectDetail :=
  let rows := lookupProjectDetailRows s project q
  { name := project
    versions := sortedSet (rows.map Row.version)
    files := rows.map Row.file }

/-- `LOOKUP_PROJECT_LIST` wrapped by `Database.get_project_list`:
`SELECT DISTINCT project ... WHERE "index" GLOB ? ORDER BY project`. -/
def getProjectList (s : Store) (q : Str) : List Str :=
  sortedSet ((s.filter fun r => indexMatches q r.index).map Row.project)

/-! ### The ETag / conditional layer

`utils.py`, class `Etag` (`main.py` instantiates it with `weak=True` and a
generator that renders the database-file watcher, i.e. an mtime, to a
string).  HTTP header values are `Option Str` (`none` = header absent);
Python truthiness makes both `None` and the empty string falsy. -/

/-- Python truthiness of a `str | None` value. -/
def truthy : Option Str → Bool
  | none => false
  | some s => s ≠ []

/-- The weak-ETag rendering: `f-string W/"{etag}"`. -/
def wquote (v : Str) : Str := 'W' :: '/' :: '"' :: (v ++ ['"'])

/-- `etag = f'W/"{etag}"' if etag and self.weak else etag`. -/
def renderEtag (weak : Bool) (v : Option Str) : Option Str :=
  match v with
  | none => none
  | some s => if s ≠ [] && weak then some (wquote s) else some s

/-- `Etag.is_modified`. -/
def isModified (etag client : Option Str) : Bool :=
  match etag with
  | none => true
  | some e =>
    if e = [] then true
    else
      match client with
      | none => true
      | some c => c = [] || decide (e ≠ c)

inductive HeaderKind where
  | ifNoneMatch
  | ifMatch
deriving DecidableEq

inductive ConditionalOutcome where
  | proceed
  | notModified
  | preconditionFailed
deriving DecidableEq, Repr

/-- The observable result of `Etag.__call__`: the outcome (continue into the
handler, raise 304, or raise 412 — the two raises produce no handler body),
the `ETag` header attached to the response or exception, and the dependency
return value when the request proceeds. -/
structure EtagResponse where
  outcome : ConditionalOutcome
  etagHeader : Option Str
  returned : Option Str
deriving DecidableEq, Repr

/-- `Etag.__call__` for a request carrying `If-None-Match` value `inm` and
`If-Match` value `im`; `v` is the generator's output. -/
def etagCall (weak : Bool) (v inm im : Option Str) : EtagResponse :=
  let etag := renderEtag weak v
  let ch : Option Str × Option HeaderKind :=
    if truthy inm then (inm, some .ifNoneMatch)
    else if truthy im then (im, some .ifMatch)
    else (im, none)
  let modified := isModified etag ch.1
  let headers := if truthy etag then etag else none
  if modified = false ∧ ch.2 = some HeaderKind.ifNoneMatch then
    ⟨.notModified, headers, none⟩
  else if modified = true ∧ ch.2 = some HeaderKind.ifMatch then
    ⟨.preconditionFailed, headers, none⟩
  else
    ⟨.proceed, headers, etag⟩

/-! ### Canonical project names and the 301 redirect

`packaging.utils.canonicalize_name` is
`re.sub(r"[-_.]+", "-", name).lower()`; project names are ASCII (PEP 508),
so per-character ASCII lowercasing is faithful.  `main.py::project_detail`
redirects with `request.url.path.replace(project, project_canonical)` —
Python `str.replace`, which replaces every non-overlapping occurrence from
left to right. -/

def isSep (c : Char) : Bool := c = '-' || c = '_' || c = '.'

/-- `re.sub(r"[-_.]+", "-", s)`: collapse every run of `-`, `_`, `.` into a
single `-`. -/
def collapseSep : Str → Str
  | [] => []
  | c :: rest =>
    if isSep c then '-' :: collapseSep (rest.dropWhile isSep)
    else c :: collapseSep rest
termination_by l => l.length
decreasing_by
  all_goals simp_wf
  all_goals
    first
      | omega
      | (have h := (List.dropWhile_sublist (l := s2) isSep).length_le
         omega)

/-- `packaging.utils.canonicalize_name`. -/
def canonicalizeName (s : Str) : Str := (collapseSep s).map Char.toLower

/-- Python `s.replace(pat, repl)`: replace every non-overlapping occurrence
of `pat`, scanning left to right (with CPython's behavior for the empty
pattern: `repl` is inserted before every character and at the end). -/
def pyReplace (pat repl : Str) : Str → Str
  | [] => if pat = [] then repl else []
  | c :: rest =>
    if pat ≠ [] && pat.isPrefixOf (c :: rest) then
      repl ++ pyReplace pat repl ((c :: rest).drop pat.length)
    else if pat = [] then repl ++ c :: pyReplace pat repl rest
    else c :: pyReplace pat repl rest
termination_by s => s.length
decreasing_by
  all_goals simp_wf
  all_goals
    first
      | omega
      | (rename_i hc
         simp only [ne_eq, Bool.and_eq_true, decide_eq_true_eq] at hc
         have hp : pat.length ≠ 0 := fun h0 => hc.1 (List.length_eq_zero.mp h0)
         omega)

/-- Python `s.split(pat)` for non-empty `pat`. -/
def pySplit (pat : Str) : Str → List Str
  | [] => [[]]
  | c :: rest =>
    if pat ≠ [] && pat.isPrefixOf (c :: rest) then
      [] :: pySplit pat ((c :: rest).drop pat.length)
    else
      (pySplit pat rest).modifyHead (c :: ·)
termination_by s => s.length
decreasing_by
  all_goals simp_wf
  all_goals
    first
      | omega
      | (rename_i hc
         simp only [ne_eq, Bool.and_eq_true, decide_eq_true_eq] at hc
         have hp : pat.length ≠ 0 := fun h0 => hc.1 (List.length_eq_zero.mp h0)
         omega)

/-- `main.py::project_detail`, lines 167–172: when the raw project path
segment differs from its canonical form, answer 301 with the path rewritten
by `str.replace`; otherwise no redirect. -/
def redirectTarget (path project : Str) : Option Str :=
  let canonical := canonicalizeName project
  if project ≠ canonical then some (pyReplace project canonical path)
  else none

/-- "Single substring replacement", as the specification words it: replace
only the first (leftmost) occurrence of `pat`, leaving the rest of the
string untouched.  This is the spec-side reading to compare `pyReplace`
against. -/
def replaceFirstOnly (pat repl : Str) : Str → Str
  | [] => if pat = [] then repl else []
  | c :: rest =>
    if pat ≠ [] && pat.isPrefixOf (c :: rest) then
      repl ++ (c :: rest).drop pat.length
    else c :: replaceFirstOnly pat repl rest

/-- Join a list of strings with a separator (Python `sep.join(parts)`). -/
def joinWith (sep : Str) : List Str → Str
  | [] => []
  | [x] => x
  | x :: y :: rest => x ++ sep ++ joinWith sep (y :: rest)

/-- Convenience: the characters of a string literal. -/
def str (s : String) : Str := s.data

/-! ## Lemmas about GLOB matching -/

/-- The query strings for which the spec's prefix reading of GLOB is exact:
no GLOB metacharacter occurs. -/
def noGlobMeta (p : Str) : Bool := p.all fun c => !(c = '*' || c = '?' || c = '[')

theorem globMatch_star_any (s : Str) : globMatch ['*'] s = true := by
  induction s with
  | nil => simp [globMatch]
  | cons c s2 ih => simp [globMatch, ih]

theorem globMatch_append_star {l : Str} (hl : noGlobMeta l = true) (s : Str) :
    globMatch (l ++ ['*']) s = true ↔ l <+: s := by
  induction l generalizing s with
  | nil => simp [globMatch_star_any]
  | cons a l2 ih =>
    have hmeta : ¬a = '*' ∧ ¬a = '?' ∧ ¬a = '[' ∧ noGlobMeta l2 = true := by
      simp only [noGlobMeta, List.all_cons, Bool.and_eq_true, Bool.not_eq_eq_eq_not,
        Bool.not_true, Bool.or_eq_false_iff, decide_eq_false_iff_not] at hl
      refine ⟨?_, ?_, ?_, ?_⟩ <;> tauto
    cases s with
    | nil =>
      simp only [List.cons_append, globMatch, hmeta.1, if_false]
      simp
    | cons c s2 =>
      simp only [List.cons_append, globMatch, hmeta.1, hmeta.2.1, hmeta.2.2.1, if_false,
        Bool.and_eq_true, decide_eq_true_eq, ih hmeta.2.2.2, List.cons_prefix_cons]

theorem append_singleton_prefix_append_singleton (p e : Str) (x : Char) :
    p ++ [x] <+: e ++ [x] ↔ p = e ∨ p ++ [x] <+: e := by
  induction p generalizing e with
  | nil =>
    cases e with
    | nil => simp
    | cons y e2 => simp [List.cons_prefix_cons, eq_comm]
  | cons a p2 ih =>
    cases e with
    | nil =>
      simp only [List.nil_append, List.cons_append, List.cons_prefix_cons]
      constructor
      · rintro ⟨rfl, h⟩
        have := h.length_le
        simp at this
      · rintro (h | h)
        · exact absurd h (by simp)
        · exact absurd h.length_le (by simp)
    | cons y e2 =>
      simp [List.cons_prefix_cons, ih, and_or_left]

theorem lstripDot_append_slash (d : Str) :
    lstripDot (d ++ ['/']) = lstripDot d ++ ['/'] := by
  induction d with
  | nil => simp [lstripDot]
  | cons c d2 ih =>
    by_cases hc : c = '.'
    · subst hc
      simpa [lstripDot] using ih
    · simp [lstripDot, List.dropWhile_cons, hc]

/-- For a metacharacter-free non-empty query `p`, the GLOB filter of
`database.py` keeps exactly the rows whose stored index starts with `p/`. -/
theorem indexMatches_characterization {p : Str} (hp : p ≠ []) (hglob : noGlobMeta p = true)
    (stored : Str) : indexMatches p stored = true ↔ p ++ ['/'] <+: stored := by
  have hmeta : noGlobMeta (p ++ ['/']) = true := by
    simp only [noGlobMeta, List.all_append, Bool.and_eq_true] at hglob ⊢
    exact ⟨hglob, by simp⟩
  have : searchIndex p = (p ++ ['/']) ++ ['*'] := by
    simp [searchIndex, hp]
  rw [indexMatches, this, globMatch_append_star hmeta]

/-! ## Lemmas about the query operations -/

instance : IsTotal Str fun a b => strLe a b = true := ⟨strLe_total⟩

instance : IsTrans Str fun a b => strLe a b = true := ⟨fun _ _ _ => strLe_trans⟩

instance (key : Row → Str) : IsTotal Row fun a b => strLe (key a) (key b) = true :=
  ⟨fun a b => strLe_total (key a) (key b)⟩

instance (key : Row → Str) : IsTrans Row fun a b => strLe (key a) (key b) = true :=
  ⟨fun _ _ _ => strLe_trans⟩

theorem mem_sortedSet {a : Str} {l : List Str} : a ∈ sortedSet l ↔ a ∈ l := by
  unfold sortedSet
  rw [(List.perm_insertionSort _ _).mem_iff]
  exact List.mem_dedup

theorem sortedSet_sorted (l : List Str) :
    (sortedSet l).Sorted fun a b => strLe a b = true :=
  List.sorted_insertionSort _ _

theorem sortedSet_nodup (l : List Str) : (sortedSet l).Nodup :=
  ((List.perm_insertionSort _ _).nodup_iff).mpr (List.nodup_dedup l)

theorem sortByKey_perm (key : Row → Str) (l : List Row) : List.Perm (sortByKey key l) l :=
  List.perm_insertionSort _ _

theorem sortByKey_sorted (key : Row → Str) (l : List Row) :
    (sortByKey key l).Sorted fun a b => strLe (key a) (key b) = true :=
  List.sorted_insertionSort _ _

theorem keepFirstByFilename_subset (l : List Row) :
    ∀ r ∈ keepFirstByFilename l, r ∈ l := by
  match l with
  | [] => simp [keepFirstByFilename]
  | x :: rest =>
    intro r hr
    rw [keepFirstByFilename] at hr
    rcases List.mem_cons.mp hr with h | h
    · simp [h]
    · have hrec := keepFirstByFilename_subset
        (rest.filter fun z => z.filename ≠ x.filename) r h
      exact List.mem_cons_of_mem _ (List.mem_of_mem_filter hrec)
termination_by l.length
decreasing_by
  simp_wf
  have h := List.length_filter_le (fun z => !decide (z.filename = x.filename)) rest
  omega

theorem keepFirstByFilename_pairwise (l : List Row) :
    (keepFirstByFilename l).Pairwise fun a b => a.filename ≠ b.filename := by
  match l with
  | [] => simp [keepFirstByFilename]
  | x :: rest =>
    rw [keepFirstByFilename]
    refine List.pairwise_cons.mpr ⟨?_, ?_⟩
    · intro r hr
      have hmem := keepFirstByFilename_subset _ r hr
      have := List.of_mem_filter hmem
      simp only [ne_eq, decide_not, Bool.not_eq_eq_eq_not, Bool.not_true,
        decide_eq_false_iff_not] at this
      exact fun hx => this (hx ▸ rfl)
    · exact keepFirstByFilename_pairwise (rest.filter fun z => z.filename ≠ x.filename)
termination_by l.length
decreasing_by
  simp_wf
  have h := List.length_filter_le (fun z => !decide (z.filename = x.filename)) rest
  omega

theorem keepFirstByFilename_head (l : List Row) :
    ∀ r ∈ keepFirstByFilename l,
      (l.filter fun z => z.filename = r.filename).head? = some r := by
  match l with
  | [] => simp [keepFirstByFilename]
  | x :: rest =>
    intro r hr
    rw [keepFirstByFilename] at hr
    rcases List.mem_cons.mp hr with h | h
    · subst h
      simp [List.filter_cons]
    · have hne : r.filename ≠ x.filename := by
        have hmem := keepFirstByFilename_subset _ r h
        have := List.of_mem_filter hmem
        simpa using this
      have hrec := keepFirstByFilename_head
        (rest.filter fun z => z.filename ≠ x.filename) r h
      rw [List.filter_filter] at hrec
      rw [List.filter_cons]
      have hxcond : ¬(decide (x.filename = r.filename) = true) := by
        simp
        exact fun hx => hne (hx ▸ rfl)
      rw [if_neg hxcond]
      rw [← hrec]
      congr 1
      apply List.filter_congr
      intro z _
      by_cases hz : z.filename = r.filename
      · simp [hz, hne]
      · simp [hz]
termination_by l.length
decreasing_by
  simp_wf
  have h := List.length_filter_le (fun z => !decide (z.filename = x.filename)) rest
  omega

theorem keepFirstByFilename_covers (l : List Row) :
    ∀ m ∈ l, ∃ r ∈ keepFirstByFilename l, r.filename = m.filename := by
  match l with
  | [] => simp
  | x :: rest =>
    intro m hm
    rw [keepFirstByFilename]
    rcases List.mem_cons.mp hm with h | h
    · exact ⟨x, List.mem_cons_self .., by rw [h]⟩
    · by_cases hx : m.filename = x.filename
      · exact ⟨x, List.mem_cons_self .., hx.symm⟩
      · have hmem : m ∈ rest.filter fun z => z.filename ≠ x.filename := by
          refine List.mem_filter.mpr ⟨h, ?_⟩
          simpa using hx
        obtain ⟨r, hr, hrf⟩ := keepFirstByFilename_covers
          (rest.filter fun z => z.filename ≠ x.filename) m hmem
        exact ⟨r, List.mem_cons_of_mem _ hr, hrf⟩
termination_by l.length
decreasing_by
  simp_wf
  have h := List.length_filter_le (fun z => !decide (z.filename = x.filename)) rest
  omega

theorem mem_getProjectList {s : Store} {q proj : Str} :
    proj ∈ getProjectList s q ↔
      ∃ r ∈ s, r.project = proj ∧ indexMatches q r.index = true := by
  unfold getProjectList
  rw [mem_sortedSet]
  simp only [List.mem_map, List.mem_filter]
  constructor
  · rintro ⟨r, ⟨hr, hm⟩, rfl⟩
    exact ⟨r, hr, rfl, hm⟩
  · rintro ⟨r, hr, rfl, hm⟩
    exact ⟨r, ⟨hr, hm⟩, rfl⟩

/-! ## Claim C1 -/

unseal globMatch

/-- **C1, counterexample.**  The claim reads the GLOB filter as: a row
matches a non-empty query `p` iff the file's directory path relative to
`files_dir` equals `p` or begins with `p/`.  Two concrete refutations from
the code: (a) for a directory named `.hidden`, the scanner stores the index
`hidden/` (`lstrip(".")` strips the leading dot), so the row matches the
query `hidden` although `.hidden` neither equals `hidden` nor starts with
`hidden/`; (b) a query containing a GLOB metacharacter, such as `*`, matches
the row of directory `ext` although `ext` neither equals `*` nor starts
with `*/`. -/
theorem c1_counterexample :
    (indexMatches (str "hidden") (subIndex (str ".hidden")) = true
      ∧ ¬(str ".hidden" = str "hidden" ∨ str "hidden" ++ ['/'] <+: str ".hidden"))
    ∧ (indexMatches (str "*") (subIndex (str "ext")) = true
      ∧ ¬(str "ext" = str "*" ∨ str "*" ++ ['/'] <+: str "ext")) := by
  refine ⟨⟨by decide, ?_⟩, ⟨by decide, ?_⟩⟩ <;> (rintro (h | h) <;> revert h <;> decide)

/-- **C1, amended.**  For every store and query `p`: an empty `p` matches
every row; a non-empty `p` that contains no GLOB metacharacter (`*`, `?`,
`[`) matches the row of a file whose directory renders as `d` relative to
`files_dir` iff `d` *with its leading '.' characters stripped* equals `p`
or begins with `p/`.  `get_project_list` returns exactly the distinct
project names of the matching rows, and every row `get_project_detail`
returns passed the same filter. -/
theorem c1_theorem (p : Str) (hp : p ≠ []) (hglob : noGlobMeta p = true) :
    (∀ d : Str, indexMatches [] (subIndex d) = true)
    ∧ (∀ d : Str, indexMatches p (subIndex d) = true ↔
        lstripDot d = p ∨ p ++ ['/'] <+: lstripDot d)
    ∧ (∀ (s : Store) (proj : Str),
        proj ∈ getProjectList s p ↔
          ∃ r ∈ s, r.project = proj ∧ indexMatches p r.index = true)
    ∧ (∀ (s : Store) (proj : Str), ∀ r ∈ lookupProjectDetailRows s proj p,
        r ∈ s ∧ r.project = proj ∧ indexMatches p r.index = true) := by
  refine ⟨?_, ?_, ?_, ?_⟩
  · intro d
    simp [indexMatches, searchIndex, globMatch_star_any]
  · intro d
    rw [subIndex, lstripDot_append_slash, indexMatches_characterization hp hglob,
      append_singleton_prefix_append_singleton]
    constructor
    · rintro (h | h)
      · exact Or.inl h.symm
      · exact Or.inr h
    · rintro (h | h)
      · exact Or.inl h.symm
      · exact Or.inr h
  · intro s proj
    exact mem_getProjectList
  · intro s proj r hr
    have hmem : r ∈ keepFirstByFilename
        (s.filter fun z => z.project = proj && indexMatches p z.index) := by
      exact ((sortByKey_perm _ _).mem_iff).mp hr
    have hfil := keepFirstByFilename_subset _ r hmem
    have h1 := List.mem_of_mem_filter hfil
    have h2 := List.of_mem_filter hfil
    simp only [Bool.and_eq_true, decide_eq_true_eq] at h2
    exact ⟨h1, h2.1, h2.2⟩

/-- **C1, witness.**  The amended characterization at the concrete query
`ext` and directories `ext` and `ext/sub`. -/
theorem c1_witness :
    str "ext" ≠ [] ∧ noGlobMeta (str "ext") = true ∧
      (indexMatches (str "ext") (subIndex (str "ext")) = true
        ∧ indexMatches (str "ext") (subIndex (str "ext/sub")) = true
        ∧ indexMatches (str "ext") (subIndex (str "lib")) = false) := by
  refine ⟨by decide, by decide, ?_, ?_, ?_⟩
  · exact ((c1_theorem (str "ext") (by decide) (by decide)).2.1 (str "ext")).mpr
      (Or.inl (by decide))
  · exact ((c1_theorem (str "ext") (by decide) (by decide)).2.1 (str "ext/sub")).mpr
      (Or.inr (by decide))
  · by_contra h
    have h2 := ((c1_theorem (str "ext") (by decide) (by decide)).2.1 (str "lib")).mp
      (by revert h; cases hb : indexMatches (str "ext") (subIndex (str "lib")) <;> simp)
    revert h2
    rintro (h2 | h2) <;> revert h2 <;> decide

/-! ## Lemmas about the walk -/

/-- Specification-side: the tree has, at directory path `d`, exactly the
file list `fs`. -/
def dirFiles : DirTree → List Str → List Str → Prop
  | .node _ files, [], fs => fs = files
  | .node subs _, n :: d, fs => ∃ c ∈ subs, c.1 = n ∧ dirFiles c.2 d fs

mutual

theorem mem_walkTree (p : List Str) (t : DirTree) (e fs : List Str) :
    (e, fs) ∈ walkTree p t ↔ ∃ d, e = p ++ d ∧ dirFiles t d fs := by
  match t with
  | .node subs files =>
    rw [walkTree, List.mem_cons, mem_walkSubs p subs e fs]
    constructor
    · rintro (h | ⟨n, c, hc, d, rfl, hdf⟩)
      · have he : e = p := congrArg Prod.fst h
        have hfs : fs = files := congrArg Prod.snd h
        exact ⟨[], by simp [he], by simp [dirFiles, hfs]⟩
      · exact ⟨n :: d, rfl, ⟨(n, c), hc, rfl, hdf⟩⟩
    · rintro ⟨d, rfl, hdf⟩
      cases d with
      | nil =>
        left
        have : fs = files := hdf
        simp [this]
      | cons n d2 =>
        right
        obtain ⟨c, hc, hn, hdf2⟩ := hdf
        refine ⟨n, c.2, ?_, d2, rfl, hdf2⟩
        have : (n, c.2) = c := by
          rw [← hn]
        rw [this]
        exact hc
  termination_by sizeOf t

theorem mem_walkSubs (p : List Str) (subs : List (Str × DirTree)) (e fs : List Str) :
    (e, fs) ∈ walkSubs p subs ↔
      ∃ n c, (n, c) ∈ subs ∧ ∃ d, e = p ++ n :: d ∧ dirFiles c d fs := by
  match subs with
  | [] => simp [walkSubs]
  | (n0, c0) :: rest =>
    rw [walkSubs, List.mem_append, mem_walkTree (p ++ [n0]) c0 e fs,
      mem_walkSubs p rest e fs]
    constructor
    · rintro (⟨d, rfl, hdf⟩ | ⟨n, c, hc, d, rfl, hdf⟩)
      · exact ⟨n0, c0, List.mem_cons_self .., d, by simp, hdf⟩
      · exact ⟨n, c, List.mem_cons_of_mem _ hc, d, rfl, hdf⟩
    · rintro ⟨n, c, hc, d, rfl, hdf⟩
      rcases List.mem_cons.mp hc with h | h
      · left
        have hn : n = n0 := congrArg Prod.fst h
        have hc2 : c = c0 := congrArg Prod.snd h
        subst hn
        subst hc2
        exact ⟨d, by simp, hdf⟩
      · right
        exact ⟨n, c, h, d, rfl, hdf⟩
  termination_by sizeOf subs

end

theorem hasFile_iff_dirFiles (d : List Str) (t : DirTree) (f : Str) :
    hasFile t d f ↔ ∃ fs, dirFiles t d fs ∧ f ∈ fs := by
  induction d generalizing t with
  | nil =>
    match t with
    | .node subs files =>
      constructor
      · intro h
        exact ⟨files, rfl, h⟩
      · rintro ⟨fs, rfl, hf⟩
        exact hf
  | cons n d2 ih =>
    match t with
    | .node subs files =>
      constructor
      · rintro ⟨c, hc, hn, hhf⟩
        obtain ⟨fs, hdf, hf⟩ := (ih c.2).mp hhf
        exact ⟨fs, ⟨c, hc, hn, hdf⟩, hf⟩
      · rintro ⟨fs, ⟨c, hc, hn, hdf⟩, hf⟩
        exact ⟨c, hc, hn, (ih c.2).mpr ⟨fs, hdf, hf⟩⟩

/-- The complete characterization of what `iter_files` yields. -/
theorem mem_iterFiles (cacheRel : List Str) (t : DirTree) (i : Str) (d : List Str)
    (f : Str) :
    (i, (d, f)) ∈ iterFiles cacheRel t ↔
      hasFile t d f ∧ d ≠ cacheRel ∧ i = subIndex (asPosix d) := by
  unfold iterFiles
  rw [List.mem_flatMap]
  constructor
  · rintro ⟨⟨e, fs⟩, hmem, hin⟩
    by_cases hec : e = cacheRel
    · simp [hec] at hin
    · simp only [hec, if_false, List.mem_map] at hin
      obtain ⟨f0, hf0, heq⟩ := hin
      have hi : i = subIndex (asPosix e) := (congrArg Prod.fst heq).symm
      have hd : (d, f) = (e, f0) := (congrArg Prod.snd heq).symm
      have hde : d = e := congrArg Prod.fst hd
      have hff : f = f0 := congrArg Prod.snd hd
      subst hde
      subst hff
      obtain ⟨d0, hd0, hdf⟩ := (mem_walkTree [] t d fs).mp hmem
      simp only [List.nil_append] at hd0
      subst hd0
      exact ⟨(hasFile_iff_dirFiles d t f).mpr ⟨fs, hdf, hf0⟩, hec, hi⟩
  · rintro ⟨hhf, hne, rfl⟩
    obtain ⟨fs, hdf, hf⟩ := (hasFile_iff_dirFiles d t f).mp hhf
    refine ⟨(d, fs), (mem_walkTree [] t d fs).mpr ⟨d, by simp, hdf⟩, ?_⟩
    simp only [hne, if_false, List.mem_map]
    exact ⟨f, hf, rfl⟩

/-! ## Claim C4 -/

/-- **C4, counterexample.**  The claim says the sub-index is the relative
directory path with a leading `./` stripped and *nothing else added*, so
`""` for the root and `"ext"` for `<files_dir>/ext`.  The code builds
`f"{relpath}/".lstrip(".")`: the root gets `"/"` (not `""`) and `ext` gets
`"ext/"` (not `"ext"`). -/
theorem c4_counterexample :
    subIndex (str ".") ≠ str "" ∧ subIndex (str "ext") ≠ str "ext"
    ∧ subIndex (str ".") = str "/" ∧ subIndex (str "ext") = str "ext/" := by
  refine ⟨?_, ?_, by decide, by decide⟩ <;> decide

/-- **C4, amended.**  Every file the scanner yields is assigned the sub-index
obtained from its directory path relative to `files_dir` by appending `/`
and stripping all leading `.` characters: a file directly under `files_dir`
gets `"/"` (the root index as stored), and a file at `<files_dir>/ext/x.whl`
gets `"ext/"`. -/
theorem c4_theorem (cacheRel : List Str) (t : DirTree) (i : Str) (d : List Str)
    (f : Str) (h : (i, (d, f)) ∈ iterFiles cacheRel t) :
    i = lstripDot (asPosix d) ++ ['/'] := by
  have hc := (mem_iterFiles cacheRel t i d f).mp h
  rw [hc.2.2, subIndex, lstripDot_append_slash]

/-- A small concrete tree: `files_dir` holds `r.whl` and `ext/x.whl`, with
an (empty) `.cache` directory. -/
def demoTree : DirTree :=
  .node [(str "ext", .node [] [str "x.whl"]), (str ".cache", .node [] [])]
    [str "r.whl"]

/-- **C4, witness.**  The amended assignment at the concrete file
`ext/x.whl` of `demoTree`. -/
theorem c4_witness :
    (str "ext/", ([str "ext"], str "x.whl")) ∈ iterFiles [str ".cache"] demoTree
    ∧ str "ext/" = lstripDot (asPosix [str "ext"]) ++ ['/'] := by
  have hmem : (str "ext/", ([str "ext"], str "x.whl")) ∈
      iterFiles [str ".cache"] demoTree := by decide
  exact ⟨hmem, c4_theorem [str ".cache"] demoTree _ _ _ hmem⟩

/-! ## Claim C5 -/

/-- A tree in which the cache directory `.cache` itself holds `db.sqlite`
and also a *subdirectory* `sub` holding `x.whl.metadata`. -/
def cacheDemoTree : DirTree :=
  .node
    [(str ".cache",
      .node [(str "sub", .node [] [str "x.whl.metadata"])] [str "db.sqlite"])]
    [str "a.whl"]

/-- **C5, counterexample.**  The claim says every file under `cache_dir` at
any depth is skipped.  The walk only skips the directory that *equals*
`cache_dir`: in `cacheDemoTree` the file `.cache/sub/x.whl.metadata`, which
lies under the cache directory at depth 2, is still yielded (with sub-index
`cache/sub/`), while `.cache/db.sqlite` is skipped. -/
theorem c5_counterexample :
    (str "cache/sub/", ([str ".cache", str "sub"], str "x.whl.metadata"))
        ∈ iterFiles [str ".cache"] cacheDemoTree
    ∧ (∀ i, (i, ([str ".cache"], str "db.sqlite"))
        ∉ iterFiles [str ".cache"] cacheDemoTree) := by
  constructor
  · decide
  · intro i hmem
    exact ((mem_iterFiles _ _ _ _ _).mp hmem).2.1 rfl

/-- **C5, amended.**  When `cache_dir` is nested inside `files_dir`, the
walk skips exactly the files lying *directly* in `cache_dir`: a pair
`(i, (d, f))` is yielded iff the tree has file `f` in directory `d`, `d` is
not the cache directory itself, and `i` is the sub-index of `d`.  Files in
proper subdirectories of `cache_dir` are therefore still yielded (they are
only discarded later when `read` rejects them as unhandled). -/
theorem c5_theorem (cacheRel : List Str) (t : DirTree) :
    ∀ (i : Str) (d : List Str) (f : Str),
      (i, (d, f)) ∈ iterFiles cacheRel t ↔
        hasFile t d f ∧ d ≠ cacheRel ∧ i = subIndex (asPosix d) :=
  fun i d f => mem_iterFiles cacheRel t i d f

/-! ## Claim C2 -/

/-- Two file blobs for the same filename that differ in `size`. -/
def pfSizeOne : ProjectFile := ⟨str "a.whl", 1, str "a.whl", [], none, none, none⟩

def pfSizeTwo : ProjectFile := ⟨str "a.whl", 2, str "a.whl", [], none, none, none⟩

def rowSizeOne : Row := ⟨str "", str "a", str "a.whl", str "1", pfSizeOne⟩

def rowSizeTwo : Row := ⟨str "", str "a", str "a.whl", str "1", pfSizeTwo⟩

/-- **C2, counterexample.**  The schema's unique index is on
`("index", "file")`, not `("index", filename)`, and `STORE_DIST` is a plain
`INSERT`.  Hence: inserting a second row with the same `(index, filename)`
but a different file blob *succeeds*, leaving two rows with that pair; and
inserting an exact duplicate blob raises (IntegrityError) instead of being
dropped as a silent no-op. -/
theorem c2_counterexample :
    insertDist [rowSizeOne] rowSizeTwo = .ok [rowSizeOne, rowSizeTwo]
    ∧ rowSizeOne.index = rowSizeTwo.index
    ∧ rowSizeOne.filename = rowSizeTwo.filename
    ∧ rowSizeOne ≠ rowSizeTwo
    ∧ insertDist [rowSizeOne] rowSizeOne = .error () := by
  refine ⟨rfl, by decide, by decide, by decide, rfl⟩

/-- **C2, amended.**  What the insert operation itself guarantees: it fails
with an error exactly when an existing row has the same
`("index", "file")` pair (so exact duplicates are rejected, not silently
dropped); a successful insert appends the row; and the insert preserves
`("index", "file")` uniqueness of the store.  Uniqueness of
`(index, filename)` is *not* enforced by the insert — it is maintained only
by `Database.update`'s check-before-insert. -/
theorem c2_theorem (s : Store) (r : Row) :
    (insertDist s r = .error () ↔ ∃ x ∈ s, x.index = r.index ∧ x.file = r.file)
    ∧ (∀ s2, insertDist s r = .ok s2 → s2 = s ++ [r])
    ∧ ((s.Pairwise fun a b => ¬(a.index = b.index ∧ a.file = b.file)) →
        ∀ s2, insertDist s r = .ok s2 →
          s2.Pairwise fun a b => ¬(a.index = b.index ∧ a.file = b.file)) := by
  unfold insertDist
  by_cases hconf : (s.any fun x => x.index = r.index && x.file = r.file) = true
  · rw [if_pos hconf]
    simp only [List.any_eq_true, Bool.and_eq_true, decide_eq_true_eq] at hconf
    refine ⟨⟨fun _ => ?_, fun _ => rfl⟩, ?_, ?_⟩
    · obtain ⟨x, hx, h1, h2⟩ := hconf
      exact ⟨x, hx, h1, h2⟩
    · intro s2 h
      cases h
    · intro _ s2 h
      cases h
  · rw [if_neg hconf]
    simp only [List.any_eq_true, Bool.and_eq_true, decide_eq_true_eq] at hconf
    push_neg at hconf
    refine ⟨?_, ?_, ?_⟩
    · constructor
      · intro h
        cases h
      · rintro ⟨x, hx, h1, h2⟩
        exact absurd h2 (hconf x hx h1)
    · intro s2 h
      injection h with h2
      exact h2.symm
    · intro hpw s2 h
      injection h with h2
      rw [← h2, List.pairwise_append]
      refine ⟨hpw, List.pairwise_singleton .., ?_⟩
      intro a ha b hb
      rw [List.mem_singleton] at hb
      subst hb
      exact fun hand => (hconf a ha) hand.1 hand.2

/-- **C2, witness.**  A successful insert into the empty store appends the
row, via the amended theorem. -/
theorem c2_witness :
    insertDist [] rowSizeOne = .ok [rowSizeOne]
    ∧ ([rowSizeOne] : Store) = [] ++ [rowSizeOne] :=
  ⟨rfl, (c2_theorem [] rowSizeOne).2.1 [rowSizeOne] rfl⟩

/-! ## Claim C3 -/

/-- The invariant every row created by the scanner satisfies: the blob's
`filename` field equals the row's `filename` column (`Database.update`
inserts `(index, name, file.name, version, dist)` with
`dist.filename == file.name`). -/
def WFStore (s : Store) : Prop := ∀ r ∈ s, r.file.filename = r.filename

/-- `ProjectFileReader.read` builds `ProjectFile(filename=file.name, ...)`:
a successful read returns a blob whose `filename` is the file's name. -/
def ReadOK (read : FileEntry → ReadOutcome) : Prop :=
  ∀ fe n v pf, read fe = .ok n v pf → pf.filename = fe.2

theorem checkDist_mono {s s2 : Store} (hsub : ∀ r ∈ s, r ∈ s2) {idx fn : Str}
    (h : checkDist s idx fn = true) : checkDist s2 idx fn = true := by
  simp only [checkDist, List.any_eq_true] at h ⊢
  obtain ⟨x, hx, hp⟩ := h
  exact ⟨x, hsub x hx, hp⟩

/-- One full pass of `Database.update` over any file list: it never raises
(under the two scanner invariants), only appends rows, preserves the
invariant, and afterwards every file of the list with a successful read is
present as an `(index, filename)` pair. -/
theorem updateFiles_ok (read : FileEntry → ReadOutcome) (hread : ReadOK read) :
    ∀ (l : List (Str × FileEntry)) (s : Store), WFStore s →
      ∃ s2, updateFiles read l s = .ok s2 ∧ WFStore s2
        ∧ (∀ r ∈ s, r ∈ s2)
        ∧ (∀ q ∈ l, ∀ n v pf, read q.2 = .ok n v pf →
            checkDist s2 q.1 q.2.2 = true) := by
  intro l
  induction l with
  | nil =>
    intro s hwf
    exact ⟨s, rfl, hwf, fun r hr => hr, by simp⟩
  | cons x rest ih =>
    intro s hwf
    obtain ⟨idx, fe⟩ := x
    by_cases hchk : checkDist s idx fe.2 = true
    · obtain ⟨s2, heq, hwf2, hsub, hall⟩ := ih s hwf
      refine ⟨s2, ?_, hwf2, hsub, ?_⟩
      · simpa [updateFiles, hchk] using heq
      · intro q hq n v pf hok
        rcases List.mem_cons.mp hq with h | h
        · subst h
          exact checkDist_mono hsub hchk
        · exact hall q h n v pf hok
    · rw [Bool.not_eq_true] at hchk
      cases hro : read fe with
      | unhandled =>
        obtain ⟨s2, heq, hwf2, hsub, hall⟩ := ih s hwf
        refine ⟨s2, ?_, hwf2, hsub, ?_⟩
        · simpa [updateFiles, hchk, hro] using heq
        · intro q hq n v pf hok
          rcases List.mem_cons.mp hq with h | h
          · subst h
            rw [hro] at hok
            cases hok
          · exact hall q h n v pf hok
      | invalid =>
        obtain ⟨s2, heq, hwf2, hsub, hall⟩ := ih s hwf
        refine ⟨s2, ?_, hwf2, hsub, ?_⟩
        · simpa [updateFiles, hchk, hro] using heq
        · intro q hq n v pf hok
          rcases List.mem_cons.mp hq with h | h
          · subst h
            rw [hro] at hok
            cases hok
          · exact hall q h n v pf hok
      | ok n v pf =>
        have hpf : pf.filename = fe.2 := hread fe n v pf hro
        have hnoconf : (s.any fun x => x.index = idx && x.file = pf) = false := by
          rw [Bool.eq_false_iff]
          intro hany
          simp only [List.any_eq_true, Bool.and_eq_true, decide_eq_true_eq] at hany
          obtain ⟨x, hx, hxi, hxf⟩ := hany
          have : checkDist s idx fe.2 = true := by
            simp only [checkDist, List.any_eq_true, Bool.and_eq_true,
              decide_eq_true_eq]
            exact ⟨x, hx, hxi, by rw [← hpf, ← hxf]; exact (hwf x hx).symm⟩
          rw [this] at hchk
          cases hchk
        have hwfrow : WFStore (s ++ [(⟨idx, n, fe.2, v, pf⟩ : Row)]) := by
          intro r hr
          rcases List.mem_append.mp hr with h | h
          · exact hwf r h
          · rw [List.mem_singleton] at h
            subst h
            exact hpf
        obtain ⟨s3, heq, hwf3, hsub3, hall3⟩ :=
          ih (s ++ [(⟨idx, n, fe.2, v, pf⟩ : Row)]) hwfrow
        have hrowin : (⟨idx, n, fe.2, v, pf⟩ : Row) ∈ s3 :=
          hsub3 _ (List.mem_append.mpr (Or.inr (List.mem_singleton.mpr rfl)))
        refine ⟨s3, ?_, hwf3, ?_, ?_⟩
        · simpa [updateFiles, hchk, hro, insertDist, hnoconf] using heq
        · intro r hr
          exact hsub3 r (List.mem_append.mpr (Or.inl hr))
        · intro q hq n2 v2 pf2 hok
          rcases List.mem_cons.mp hq with h | h
          · subst h
            simp only [checkDist, List.any_eq_true, Bool.and_eq_true,
              decide_eq_true_eq]
            exact ⟨_, hrowin, rfl, rfl⟩
          · exact hall3 q h n2 v2 pf2 hok

/-- A pass over files that are all either unreadable or already present
changes nothing. -/
theorem updateFiles_noop (read : FileEntry → ReadOutcome) :
    ∀ (l : List (Str × FileEntry)) (s : Store),
      (∀ q ∈ l, ∀ n v pf, read q.2 = .ok n v pf → checkDist s q.1 q.2.2 = true) →
      updateFiles read l s = .ok s := by
  intro l
  induction l with
  | nil => intro s _; rfl
  | cons x rest ih =>
    intro s h
    obtain ⟨idx, fe⟩ := x
    by_cases hchk : checkDist s idx fe.2 = true
    · simp only [updateFiles, hchk, if_true]
      exact ih s fun q hq => h q (List.mem_cons_of_mem _ hq)
    · rw [Bool.not_eq_true] at hchk
      cases hro : read fe with
      | unhandled =>
        simp only [updateFiles, hchk, if_false, hro]
        exact ih s fun q hq => h q (List.mem_cons_of_mem _ hq)
      | invalid =>
        simp only [updateFiles, hchk, if_false, hro]
        exact ih s fun q hq => h q (List.mem_cons_of_mem _ hq)
      | ok n v pf =>
        have := h (idx, fe) (List.mem_cons_self ..) n v pf hro
        rw [this] at hchk
        cases hchk

/-- **C3.**  Scanning an unchanged tree twice is the same as scanning it
once: the first pass succeeds and produces some store `s1`; the second pass
over the same tree returns `s1` unchanged (every readable file is skipped by
`CHECK_DIST`, and unreadable ones are skipped by the error handlers), so
`stats()` and every `ProjectDetail` (and project list) agree with the
single-pass results. -/
theorem c3_theorem (read : FileEntry → ReadOutcome) (cacheRel : List Str)
    (t : DirTree) (s0 : Store) (hwf : WFStore s0) (hread : ReadOK read) :
    ∃ s1, update read cacheRel t s0 = .ok s1
      ∧ update read cacheRel t s1 = .ok s1
      ∧ (∀ s2, update read cacheRel t s1 = .ok s2 →
          stats s2 = stats s1
          ∧ (∀ proj q, getProjectDetail s2 proj q = getProjectDetail s1 proj q)
          ∧ (∀ q, getProjectList s2 q = getProjectList s1 q)) := by
  obtain ⟨s1, heq, _, _, hall⟩ := updateFiles_ok read hread (iterFiles cacheRel t) s0 hwf
  have hsecond : update read cacheRel t s1 = .ok s1 :=
    updateFiles_noop read (iterFiles cacheRel t) s1 hall
  refine ⟨s1, heq, hsecond, ?_⟩
  intro s2 h2
  rw [hsecond] at h2
  injection h2 with h2
  subst h2
  exact ⟨rfl, fun _ _ => rfl, fun _ => rfl⟩

/-- A concrete deterministic reader: every file parses, with project name
`a`, version `1`, and a blob whose filename is the file's own name. -/
def demoRead (fe : FileEntry) : ReadOutcome :=
  .ok (str "a") (str "1") ⟨fe.2, 1, fe.2, [], none, none, none⟩

/-- **C3, witness.**  The double-scan equality at the concrete `demoTree`,
`demoRead` and the empty initial store. -/
theorem c3_witness :
    ∃ s1, update demoRead [str ".cache"] demoTree [] = .ok s1
      ∧ update demoRead [str ".cache"] demoTree s1 = .ok s1 := by
  obtain ⟨s1, h1, h2, _⟩ :=
    c3_theorem demoRead [str ".cache"] demoTree []
      (fun r hr => absurd hr (List.not_mem_nil r))
      (fun fe n v pf h => by
        cases h
        rfl)
  exact ⟨s1, h1, h2⟩

/-! ## Claim C9 -/

/-- **C9.**  For every `get_project_detail(project, index)` result, with the
store satisfying the scanner invariant (blob filename = column filename):
the files list keeps exactly one blob per filename — namely the one of the
first matching row in store (rowid) order — is sorted ascending by
filename, and the versions list is the duplicate-free ascending enumeration
of the versions of the kept rows. -/
theorem c9_theorem (s : Store) (project q : Str) (hwf : WFStore s) :
    ((getProjectDetail s project q).files.map ProjectFile.filename).Pairwise
        (fun a b => a ≠ b)
    ∧ ((getProjectDetail s project q).files.map ProjectFile.filename).Sorted
        (fun a b => strLe a b = true)
    ∧ (∀ r ∈ lookupProjectDetailRows s project q,
        ((s.filter fun z => z.project = project && indexMatches q z.index).filter
            fun z => z.filename = r.filename).head? = some r)
    ∧ (∀ m ∈ s.filter fun z => z.project = project && indexMatches q z.index,
        ∃ r ∈ lookupProjectDetailRows s project q, r.filename = m.filename)
    ∧ (getProjectDetail s project q).versions.Sorted (fun a b => strLe a b = true)
    ∧ (getProjectDetail s project q).versions.Nodup
    ∧ (∀ v, v ∈ (getProjectDetail s project q).versions ↔
        ∃ r ∈ lookupProjectDetailRows s project q, r.version = v) := by
  have hperm := sortByKey_perm Row.filename
    (keepFirstByFilename (s.filter fun z => z.project = project && indexMatches q z.index))
  have hsubm : ∀ r ∈ lookupProjectDetailRows s project q,
      r ∈ s.filter fun z => z.project = project && indexMatches q z.index :=
    fun r hr => keepFirstByFilename_subset _ r (hperm.mem_iff.mp hr)
  have hsubs : ∀ r ∈ lookupProjectDetailRows s project q, r ∈ s :=
    fun r hr => List.mem_of_mem_filter (hsubm r hr)
  have hfiles : (getProjectDetail s project q).files =
      (lookupProjectDetailRows s project q).map Row.file := rfl
  have hmapeq : (getProjectDetail s project q).files.map ProjectFile.filename =
      (lookupProjectDetailRows s project q).map Row.filename := by
    rw [hfiles, List.map_map]
    exact List.map_congr_left fun r hr => hwf r (hsubs r hr)
  refine ⟨?_, ?_, ?_, ?_, ?_, ?_, ?_⟩
  · rw [hmapeq, List.pairwise_map]
    exact (hperm.pairwise_iff fun h => Ne.symm h).mpr (keepFirstByFilename_pairwise _)
  · rw [hmapeq]
    have := sortByKey_sorted Row.filename
      (keepFirstByFilename (s.filter fun z => z.project = project && indexMatches q z.index))
    rw [List.Sorted, List.pairwise_map]
    exact this
  · intro r hr
    exact keepFirstByFilename_head _ r (hperm.mem_iff.mp hr)
  · intro m hm
    obtain ⟨r, hr, hf⟩ := keepFirstByFilename_covers _ m hm
    exact ⟨r, hperm.mem_iff.mpr hr, hf⟩
  · exact sortedSet_sorted _
  · exact sortedSet_nodup _
  · intro v
    have : (getProjectDetail s project q).versions =
        sortedSet ((lookupProjectDetailRows s project q).map Row.version) := rfl
    rw [this, mem_sortedSet, List.mem_map]

def rowBTwo : Row :=
  ⟨str "/", str "p", str "b.whl", str "2", ⟨str "b.whl", 1, str "b.whl", [], none, none, none⟩⟩

def rowAOne : Row :=
  ⟨str "/", str "p", str "a.whl", str "1", ⟨str "a.whl", 1, str "a.whl", [], none, none, none⟩⟩

def rowBThree : Row :=
  ⟨str "/", str "p", str "b.whl", str "3", ⟨str "b.whl", 9, str "b.whl", [], none, none, none⟩⟩

/-- A store with a duplicate filename `b.whl` (the later row has a different
version and blob). -/
def detailStore : Store := [rowBTwo, rowAOne, rowBThree]

unseal keepFirstByFilename

/-- **C9, witness.**  On `detailStore` the detail for project `p` under the
root query keeps `a.whl` and the *first* `b.whl` row, sorts by filename, and
lists versions `["1", "2"]` (version `3` of the dropped row is not
collected). -/
theorem c9_witness :
    WFStore detailStore
    ∧ (getProjectDetail detailStore (str "p") (str "")).versions = [str "1", str "2"]
    ∧ (getProjectDetail detailStore (str "p") (str "")).files.map ProjectFile.filename
        = [str "a.whl", str "b.whl"]
    ∧ ((getProjectDetail detailStore (str "p") (str "")).files.map
        ProjectFile.filename).Pairwise (fun a b => a ≠ b) := by
  have hwf : WFStore detailStore :=
    (by decide : ∀ r ∈ detailStore, r.file.filename = r.filename)
  refine ⟨hwf, by decide, by decide, ?_⟩
  exact (c9_theorem detailStore (str "p") (str "") hwf).1

/-! ## Lemmas about the conditional layer -/

theorem wquote_ne_nil (t : Str) : wquote t ≠ [] := by
  simp [wquote]

theorem ne_wquote_self (t : Str) : t ≠ wquote t := by
  intro h
  have hlen := congrArg List.length h
  simp [wquote] at hlen
  omega

theorem isModified_self {e : Str} (he : e ≠ []) :
    isModified (some e) (some e) = false := by
  simp [isModified, he]

theorem isModified_of_ne {e c : Str} (he : e ≠ []) (hne : e ≠ c) :
    isModified (some e) (some c) = true := by
  by_cases hc : c = []
  · simp [isModified, he, hc]
  · simp [isModified, he, hc, hne]

theorem isModified_none {e : Str} (he : e ≠ []) :
    isModified (some e) none = true := by
  simp [isModified, he]

theorem renderEtag_weak {t : Str} (ht : t ≠ []) :
    renderEtag true (some t) = some (wquote t) := by
  simp [renderEtag, ht]

/-! ## Claim C7 -/

/-- Modelled from the spec: an MD5 value rendered as the conventional hex
digest is a 32-character hex string. -/
def isMd5HexDigest (s : Str) : Bool :=
  s.length = 32 && s.all fun c => c.isDigit || ('a' ≤ c && c ≤ 'f')

/-- **C7, counterexample.**  `Etag.__call__` computes `f'W/"{etag}"'` — no
hashing.  With the revision token rendered as `"123.456"` (a typical mtime
string), the quoted part of the emitted weak ETag is `123.456` itself, a
7-character string, which is not an MD5 hex digest (those have 32 hex
characters), so the header is not `W/"<md5(V)>"`. -/
theorem c7_counterexample :
    renderEtag true (some (str "123.456")) = some (wquote (str "123.456"))
    ∧ wquote (str "123.456") = str "W/" ++ ['"'] ++ str "123.456" ++ ['"']
    ∧ isMd5HexDigest (str "123.456") = false := by
  refine ⟨rfl, by decide, by decide⟩

/-- **C7, amended.**  On every success response the emitted ETag header is
`W/"<V>"` where the quoted part is the revision string `V` itself (no
digest is applied): for a request without conditional headers the call
proceeds, attaches exactly `W/"<V>"`, and returns it. -/
theorem c7_theorem (v : Str) (hv : v ≠ []) :
    etagCall true (some v) none none
      = ⟨.proceed, some (wquote v), some (wquote v)⟩ := by
  simp only [etagCall, renderEtag_weak hv, truthy]
  simp [isModified_none (wquote_ne_nil v), wquote_ne_nil v]

/-- **C7, witness.**  The amended statement at `V = "123.456"`. -/
theorem c7_witness :
    etagCall true (some (str "123.456")) none none
      = ⟨.proceed, some (wquote (str "123.456")), some (wquote (str "123.456"))⟩ :=
  c7_theorem (str "123.456") (by decide)

/-! ## Claim C8 -/

/-- **C8.**  The conditional behavior of `Etag.__call__` for any non-empty
revision token `t`, writing `E = W/"<t>"` for the current ETag:
`If-None-Match: E` gives 304 with the header and no handler body, whatever
`If-Match` says; `If-Match` different from `E` (with no usable
`If-None-Match`) gives 412 with the header; every other combination
proceeds with the header attached; and when both headers are sent,
`If-None-Match` alone is evaluated. -/
theorem c8_theorem (t : Str) (ht : t ≠ []) :
    (∀ im, etagCall true (some t) (some (wquote t)) im
        = ⟨.notModified, some (wquote t), none⟩)
    ∧ (∀ x, x ≠ [] → x ≠ wquote t →
        etagCall true (some t) none (some x)
          = ⟨.preconditionFailed, some (wquote t), none⟩)
    ∧ (∀ x im, x ≠ [] → x ≠ wquote t →
        etagCall true (some t) (some x) im
          = ⟨.proceed, some (wquote t), some (wquote t)⟩)
    ∧ (etagCall true (some t) none (some (wquote t))
        = ⟨.proceed, some (wquote t), some (wquote t)⟩)
    ∧ (etagCall true (some t) none none
        = ⟨.proceed, some (wquote t), some (wquote t)⟩)
    ∧ (∀ x y, x ≠ [] →
        etagCall true (some t) (some x) (some y)
          = etagCall true (some t) (some x) none) := by
  have hE := wquote_ne_nil t
  refine ⟨?_, ?_, ?_, ?_, ?_, ?_⟩
  · intro im
    simp only [etagCall, renderEtag_weak ht, truthy]
    simp [hE, isModified_self hE]
  · intro x hx hxe
    simp only [etagCall, renderEtag_weak ht, truthy]
    simp [hE, hx, isModified_of_ne hE (fun h => hxe h.symm)]
  · intro x im hx hxe
    simp only [etagCall, renderEtag_weak ht, truthy]
    simp [hE, hx, isModified_of_ne hE (fun h => hxe h.symm)]
  · simp only [etagCall, renderEtag_weak ht, truthy]
    simp [hE, isModified_self hE]
  · simp only [etagCall, renderEtag_weak ht, truthy]
    simp [hE, isModified_none hE]
  · intro x y hx
    simp only [etagCall, renderEtag_weak ht, truthy]
    simp [hx]

/-- **C8, witness.**  The four behaviors at the concrete token `0.0`
(ETag `W/"0.0"`). -/
theorem c8_witness :
    etagCall true (some (str "0.0")) (some (wquote (str "0.0"))) (some (str "zzz"))
        = ⟨.notModified, some (wquote (str "0.0")), none⟩
    ∧ etagCall true (some (str "0.0")) none (some (str "XXX"))
        = ⟨.preconditionFailed, some (wquote (str "0.0")), none⟩
    ∧ etagCall true (some (str "0.0")) (some (str "XXX")) none
        = ⟨.proceed, some (wquote (str "0.0")), some (wquote (str "0.0"))⟩ := by
  have h := c8_theorem (str "0.0") (by decide)
  exact ⟨h.1 (some (str "zzz")),
    h.2.1 (str "XXX") (by decide) (by decide),
    h.2.2.1 (str "XXX") none (by decide) (by decide)⟩

/-! ## Claim C10 -/

/-- **C10.**  The conditional layer compares validators by exact string
equality against the full weak form: for a non-empty token `t`, an
`If-None-Match` request is answered 304 exactly when the client string is
the character-exact `W/"<t>"`; a client echoing the bare token `t` never
matches — its `If-None-Match` request proceeds to a normal full response,
and its `If-Match` request receives 412 even though `t` is the current
token. -/
theorem c10_theorem (t : Str) (ht : t ≠ []) :
    (∀ c, (etagCall true (some t) (some c) none).outcome = .notModified
        ↔ c = wquote t)
    ∧ etagCall true (some t) (some t) none
        = ⟨.proceed, some (wquote t), some (wquote t)⟩
    ∧ etagCall true (some t) none (some t)
        = ⟨.preconditionFailed, some (wquote t), none⟩ := by
  have hE := wquote_ne_nil t
  have hbare : t ≠ wquote t := ne_wquote_self t
  refine ⟨?_, ?_, ?_⟩
  · intro c
    by_cases hc : c = []
    · subst hc
      simp only [etagCall, renderEtag_weak ht, truthy]
      simp [hE, isModified_none hE]
    · by_cases hce : c = wquote t
      · subst hce
        simp only [etagCall, renderEtag_weak ht, truthy]
        simp [hE, isModified_self hE]
      · simp only [etagCall, renderEtag_weak ht, truthy]
        simp [hE, hc, hce, isModified_of_ne hE (fun h => hce h.symm)]
  · simp only [etagCall, renderEtag_weak ht, truthy]
    simp [hE, ht, isModified_of_ne hE (fun h => hbare h.symm)]
  · simp only [etagCall, renderEtag_weak ht, truthy]
    simp [hE, ht, isModified_of_ne hE (fun h => hbare h.symm)]

/-- **C10, witness.**  At the token `0.0`: the exact weak string matches,
the bare token does not. -/
theorem c10_witness :
    ((etagCall true (some (str "0.0")) (some (str "W/" ++ ['"'] ++ str "0.0" ++ ['"'])) none).outcome
        = ConditionalOutcome.notModified)
    ∧ (etagCall true (some (str "0.0")) (some (str "0.0")) none
        = ⟨.proceed, some (wquote (str "0.0")), some (wquote (str "0.0"))⟩)
    ∧ (etagCall true (some (str "0.0")) none (some (str "0.0"))
        = ⟨.preconditionFailed, some (wquote (str "0.0")), none⟩) := by
  have h := c10_theorem (str "0.0") (by decide)
  exact ⟨(h.1 _).mpr (by decide), h.2.1, h.2.2⟩

/-! ## Claim C6 -/

theorem pySplit_ne_nil (pat s : Str) : pySplit pat s ≠ [] := by
  match s with
  | [] => simp [pySplit]
  | c :: rest =>
    rw [pySplit]
    by_cases h : (pat ≠ [] && pat.isPrefixOf (c :: rest)) = true
    · rw [if_pos h]
      simp
    · rw [if_neg h]
      have hrec := pySplit_ne_nil pat rest
      cases hp : pySplit pat rest with
      | nil => exact absurd hp hrec
      | cons a t => simp [hp, List.modifyHead]
termination_by s.length
decreasing_by
  all_goals simp_wf

theorem joinWith_nil_cons (sep : Str) (L : List Str) (hL : L ≠ []) :
    joinWith sep ([] :: L) = sep ++ joinWith sep L := by
  cases L with
  | nil => exact absurd rfl hL
  | cons y r => simp [joinWith]

theorem joinWith_modifyHead (sep : Str) (c : Char) (L : List Str) (hL : L ≠ []) :
    joinWith sep (L.modifyHead (c :: ·)) = c :: joinWith sep L := by
  cases L with
  | nil => exact absurd rfl hL
  | cons x r =>
    cases r with
    | nil => simp [joinWith, List.modifyHead]
    | cons y r2 => simp [joinWith, List.modifyHead]

/-- Python's `s.replace(pat, repl)` (for non-empty `pat`) coincides with the
split-and-join description `repl.join(s.split(pat))`: *every*
non-overlapping occurrence is replaced. -/
theorem pyReplace_eq_joinWith_pySplit (pat repl : Str) (hpat : pat ≠ []) (s : Str) :
    pyReplace pat repl s = joinWith repl (pySplit pat s) := by
  match s with
  | [] => simp [pyReplace, pySplit, hpat, joinWith]
  | c :: rest =>
    rw [pyReplace, pySplit]
    by_cases h : (pat ≠ [] && pat.isPrefixOf (c :: rest)) = true
    · rw [if_pos h, if_pos h]
      have hrec := pyReplace_eq_joinWith_pySplit pat repl hpat ((c :: rest).drop pat.length)
      rw [hrec, joinWith_nil_cons _ _ (pySplit_ne_nil pat _)]
    · rw [if_neg h, if_neg h]
      have hne2 : ¬pat = [] := hpat
      rw [if_neg hne2]
      have hrec := pyReplace_eq_joinWith_pySplit pat repl hpat rest
      rw [hrec, joinWith_modifyHead _ _ _ (pySplit_ne_nil pat rest)]
termination_by s.length
decreasing_by
  all_goals simp_wf
  all_goals
    first
      | omega
      | (have hp : pat.length ≠ 0 := fun h0 => hpat (List.length_eq_zero.mp h0)
         omega)

unseal pyReplace pySplit collapseSep

/-- **C6, counterexample.**  The redirect uses Python `str.replace`, which
replaces *every* occurrence.  For `GET /A.B/simple/A.B/` (index and project
segment both spelled `A.B`) the code answers 301 with `/a-b/simple/a-b/`:
both occurrences are rewritten, not one, contradicting the claim's "only
one occurrence is replaced". -/
theorem c6_counterexample :
    redirectTarget (str "/A.B/simple/A.B/") (str "A.B") = some (str "/a-b/simple/a-b/")
    ∧ replaceFirstOnly (str "A.B") (str "a-b") (str "/A.B/simple/A.B/")
        = str "/a-b/simple/A.B/"
    ∧ str "/a-b/simple/a-b/" ≠ str "/a-b/simple/A.B/" := by
  refine ⟨by decide, by decide, by decide⟩

/-- **C6, amended.**  For every GET of a project-detail path whose raw
project segment `P` differs from `canonicalize_name(P)`, the response is
301 Moved Permanently, and the redirect target is the request path with
*every* non-overlapping occurrence of `P` replaced by
`canonicalize_name(P)`, left to right — equivalently
`canonical.join(path.split(P))`. -/
theorem c6_theorem (project path : Str) (h : project ≠ canonicalizeName project) :
    redirectTarget path project
      = some (joinWith (canonicalizeName project) (pySplit project path)) := by
  have hne : project ≠ [] := by
    intro h0
    apply h
    rw [h0]
    simp [canonicalizeName, collapseSep]
  unfold redirectTarget
  rw [if_pos h, pyReplace_eq_joinWith_pySplit _ _ hne]

/-- **C6, witness.**  The amended statement at the concrete path
`/A.B/simple/A.B/`. -/
theorem c6_witness :
    str "A.B" ≠ canonicalizeName (str "A.B")
    ∧ redirectTarget (str "/A.B/simple/A.B/") (str "A.B")
        = some (joinWith (canonicalizeName (str "A.B"))
            (pySplit (str "A.B") (str "/A.B/simple/A.B/"))) := by
  refine ⟨by decide, ?_⟩
  exact c6_theorem (str "A.B") (str "/A.B/simple/A.B/") (by decide)

end PyPiSimpleServer
